import Mathlib

/-!
# Verification of the jupyter-eda-bf ETL pipeline (`etl.py`)

Shallow embedding of the ETL script's core pipeline over exact rational
arithmetic:

* the flow signer (`np.where(side == 'BUY', size, -size)`, line 61-63),
* the temporal aggregator (`groupby('timestamp')['signed_size'].sum()`,
  line 61-66),
* the smoothing engine (`d['size'].ewm(com=(1/a - 1)).mean()` /
  `.std()` followed by `dropna(how='any')`, lines 69-76), and
* the per-alpha concatenation order of the smoothed table
  (`pd.concat([... for a in alpha])`, line 70).

Pandas `ewm` with `adjust=True` (the default) computes at row `i`
(1-indexed here) the weighted mean with weight `(1-α)^(i-j)` on row `j`,
normalized by the finite sum of those weights, where pandas derives
`α = 1/(1+com)` from the `com` argument.  With `bias=False` (the default
for `.std()`), the variance is the weighted sum of squared deviations
from the current weighted mean divided by `W - Wsq/W` (`W` the sum of
weights, `Wsq` the sum of squared weights), emitted only when that
denominator is strictly positive (otherwise NaN, modelled as `none`).
-/

namespace Etl

/-! ## Data model and flow signer (etl.py lines 61-66) -/

/-- One row of the `exec` table: `SELECT exec_date, price, side, size`.
Timestamps are modelled as naturals (the ISO strings order
lexicographically, i.e. chronologically). -/
structure ExecRecord where
  exec_date : ℕ
  price : ℚ
  side : String
  size : ℚ
deriving DecidableEq, Repr

/-- Line 62-63: `np.where(d['side'] == 'BUY', d['size'], - d['size'])`.
Total: any side other than the exact string `"BUY"` is negated. -/
def signedSize (r : ExecRecord) : ℚ :=
  if r.side = "BUY" then r.size else -r.size

/-- The spec's flow signer: `signed_size = size` if side = BUY, `-size`
if side = SELL, and a malformed-side error (modelled as `none`)
otherwise.  Stated from the spec's words for comparison with
`signedSize`, the function the code actually computes. -/
def signedSizeSpec (r : ExecRecord) : Option ℚ :=
  if r.side = "BUY" then some r.size
  else if r.side = "SELL" then some (-r.size) else none

/-- Lines 61-66: `groupby('timestamp')['signed_size'].sum()`.  Pandas
groupby sorts the distinct keys ascending and emits one row per key
whose value is the sum over the group. -/
def aggregate (l : List (ℕ × ℚ)) : List (ℕ × ℚ) :=
  ((l.map Prod.fst).toFinset.sort (· ≤ ·)).map
    (fun t => (t, ((l.filter (fun p => p.1 = t)).map Prod.snd).sum))

/-! ## Smoothing engine: pandas `ewm(com=1/a-1)` semantics (lines 69-76)

Code side: the weighted-sum formulas pandas evaluates (adjust=True,
bias=False).  Indices are 1-based; index `0` means "no rows yet". -/

/-- Line 73-74: the code passes `com = 1/a - 1` to `ewm`. -/
def comOf (a : ℚ) : ℚ := 1 / a - 1

/-- Pandas derives the decay parameter from `com` as `α = 1/(1+com)`. -/
def alphaFromCom (c : ℚ) : ℚ := 1 / (1 + c)

/-- Weight pandas assigns to row `j` when the current row is `i`. -/
def weight (α : ℚ) (i j : ℕ) : ℚ := (1 - α) ^ (i - j)

/-- Sum of the weights of rows `1..i` (pandas' normalizer). -/
def wsum (α : ℚ) (i : ℕ) : ℚ :=
  (Finset.Icc 1 i).sum (fun j => weight α i j)

/-- Weighted sum of the values of rows `1..i`. -/
def wxsum (α : ℚ) (x : ℕ → ℚ) (i : ℕ) : ℚ :=
  (Finset.Icc 1 i).sum (fun j => weight α i j * x j)

/-- Sum of the squared weights of rows `1..i` (pandas' bias term). -/
def wsqsum (α : ℚ) (i : ℕ) : ℚ :=
  (Finset.Icc 1 i).sum (fun j => (weight α i j) ^ 2)

/-- `ewm(...).mean()` at row `i`: weighted average with finite
normalization. -/
def ewmMean (α : ℚ) (x : ℕ → ℚ) (i : ℕ) : ℚ := wxsum α x i / wsum α i

/-- Weighted sum of squared deviations from the current weighted mean. -/
def devsum (α : ℚ) (x : ℕ → ℚ) (i : ℕ) : ℚ :=
  (Finset.Icc 1 i).sum (fun j => weight α i j * (x j - ewmMean α x i) ^ 2)

/-- Pandas' bias-correction denominator `W - Wsq/W`. -/
def biasDenom (α : ℚ) (i : ℕ) : ℚ := wsum α i - wsqsum α i / wsum α i

/-- `ewm(...).var(bias=False)` value when it is defined. -/
def ewmVar (α : ℚ) (x : ℕ → ℚ) (i : ℕ) : ℚ := devsum α x i / biasDenom α i

/-- `ewm(...).mean()` as pandas emits it: NaN (`none`) only when the
weight normalizer vanishes. -/
def ewmMeanOpt (α : ℚ) (x : ℕ → ℚ) (i : ℕ) : Option ℚ :=
  if wsum α i ≠ 0 then some (ewmMean α x i) else none

/-- `ewm(...).var(bias=False)` as pandas emits it: the bias-corrected
variance when the correction denominator is strictly positive, NaN
(`none`) otherwise.  `ewm(...).std()` is `Real.sqrt` mapped over this
(`Option.map` in the theorems); `sqrt` introduces no further NaN since
the variance is nonnegative wherever it is defined. -/
def ewmVarOpt (α : ℚ) (x : ℕ → ℚ) (i : ℕ) : Option ℚ :=
  if 0 < biasDenom α i then some (ewmVar α x i) else none

/-! ## Spec side: the recursive sequences of §4.4 -/

/-- Spec: `S_i = x_i + (1-α)·S_{i-1}`, `S_0 = 0`. -/
def S (α : ℚ) (x : ℕ → ℚ) : ℕ → ℚ
  | 0 => 0
  | i + 1 => x (i + 1) + (1 - α) * S α x i

/-- Spec: `W_i = 1 + (1-α)·W_{i-1}`, `W_0 = 0`. -/
def W (α : ℚ) : ℕ → ℚ
  | 0 => 0
  | i + 1 => 1 + (1 - α) * W α i

/-- Spec: `Wsq_i = 1 + (1-α)^2·Wsq_{i-1}`, `Wsq_0 = 0`. -/
def Wsq (α : ℚ) : ℕ → ℚ
  | 0 => 0
  | i + 1 => 1 + (1 - α) ^ 2 * Wsq α i

/-- Spec: `mean_i = S_i / W_i`. -/
def specMean (α : ℚ) (x : ℕ → ℚ) (i : ℕ) : ℚ := S α x i / W α i

/-- Spec: `D_i = (1-α)·D_{i-1} + (1-α)·W_{i-1}/W_i·(x_i - mean_{i-1})^2`,
`D_0 = 0`. -/
def D (α : ℚ) (x : ℕ → ℚ) : ℕ → ℚ
  | 0 => 0
  | i + 1 =>
      (1 - α) * D α x i +
        (1 - α) * W α i / W α (i + 1) * (x (i + 1) - specMean α x i) ^ 2

/-! ## Recursion lemmas: the weighted sums satisfy the spec recursions -/

theorem geomsum_succ (c : ℚ) (f : ℕ → ℚ) (i : ℕ) :
    (Finset.Icc 1 (i + 1)).sum (fun j => c ^ (i + 1 - j) * f j)
      = f (i + 1) + c * (Finset.Icc 1 i).sum (fun j => c ^ (i - j) * f j) := by
  rw [Finset.sum_Icc_succ_top (by omega : 1 ≤ i + 1)]
  have hcong : ∀ j ∈ Finset.Icc 1 i,
      c ^ (i + 1 - j) * f j = c * (c ^ (i - j) * f j) := by
    intro j hj
    rcases Finset.mem_Icc.mp hj with ⟨_, hji⟩
    rw [show i + 1 - j = (i - j) + 1 by omega, pow_succ]
    ring
  rw [Finset.sum_congr rfl hcong, ← Finset.mul_sum]
  simp [Nat.sub_self]
  ring

theorem wxsum_eq_S (α : ℚ) (x : ℕ → ℚ) : ∀ i, wxsum α x i = S α x i := by
  intro i
  induction i with
  | zero => simp [wxsum, S]
  | succ i ih =>
      have h := geomsum_succ (1 - α) x i
      simp only [wxsum, weight] at ih ⊢
      rw [h, ih, S]

theorem wsum_eq_W (α : ℚ) : ∀ i, wsum α i = W α i := by
  intro i
  induction i with
  | zero => simp [wsum, W]
  | succ i ih =>
      have h := geomsum_succ (1 - α) (fun _ => 1) i
      simp only [mul_one] at h
      simp only [wsum, weight] at ih ⊢
      rw [h, ih, W]

theorem wsqsum_eq_Wsq (α : ℚ) : ∀ i, wsqsum α i = Wsq α i := by
  intro i
  induction i with
  | zero => simp [wsqsum, Wsq]
  | succ i ih =>
      have hsq : ∀ k : ℕ, ((1 - α) ^ k) ^ 2 = ((1 - α) ^ 2) ^ k := by
        intro k
        rw [← pow_mul, ← pow_mul, Nat.mul_comm]
      have h := geomsum_succ ((1 - α) ^ 2) (fun _ => 1) i
      simp only [mul_one] at h
      simp only [wsqsum, weight, hsq] at ih ⊢
      rw [h, ih, Wsq]

/-! ## Positivity and comparison lemmas for the weight masses -/

theorem W_nonneg (α : ℚ) (hβ : 0 ≤ 1 - α) : ∀ i, 0 ≤ W α i := by
  intro i
  induction i with
  | zero => simp [W]
  | succ i ih =>
      simp only [W]
      positivity

theorem W_ge_one (α : ℚ) (hβ : 0 ≤ 1 - α) : ∀ i, 1 ≤ i → 1 ≤ W α i := by
  intro i hi
  cases i with
  | zero => omega
  | succ i =>
      simp only [W]
      nlinarith [W_nonneg α hβ i]

theorem W_ne_zero (α : ℚ) (hβ : 0 ≤ 1 - α) (i : ℕ) (hi : 1 ≤ i) :
    W α i ≠ 0 := by
  have := W_ge_one α hβ i hi
  linarith

theorem Wsq_le_W_sq (α : ℚ) (hβ : 0 ≤ 1 - α) : ∀ i, Wsq α i ≤ (W α i) ^ 2 := by
  intro i
  induction i with
  | zero => simp [W, Wsq]
  | succ i ih =>
      simp only [W, Wsq]
      nlinarith [W_nonneg α hβ i, sq_nonneg (1 - α), sq_nonneg (W α i)]

theorem Wsq_lt_W_sq (α : ℚ) (hβ : 0 < 1 - α) (i : ℕ) (hi : 2 ≤ i) :
    Wsq α i < (W α i) ^ 2 := by
  cases i with
  | zero => omega
  | succ i =>
      have hi1 : 1 ≤ i := by omega
      have h1 := W_ge_one α (le_of_lt hβ) i hi1
      have h2 := Wsq_le_W_sq α (le_of_lt hβ) i
      simp only [W, Wsq]
      nlinarith [sq_nonneg (1 - α)]

/-! ## The incremental variance identity -/

theorem devsum_eq_sub (α : ℚ) (x : ℕ → ℚ) (hβ : 0 ≤ 1 - α) (i : ℕ) :
    devsum α x i
      = wxsum α (fun j => (x j) ^ 2) i - (S α x i) ^ 2 / W α i := by
  cases i with
  | zero => simp [devsum, wxsum, S, W]
  | succ i =>
      have hW : W α (i + 1) ≠ 0 := W_ne_zero α hβ (i + 1) (by omega)
      have hmean : ewmMean α x (i + 1) = S α x (i + 1) / W α (i + 1) := by
        rw [ewmMean, wxsum_eq_S, wsum_eq_W]
      have hexp : ∀ j ∈ Finset.Icc 1 (i + 1),
          weight α (i + 1) j * (x j - ewmMean α x (i + 1)) ^ 2
            = (weight α (i + 1) j * (x j) ^ 2
                - 2 * ewmMean α x (i + 1) * (weight α (i + 1) j * x j))
              + (ewmMean α x (i + 1)) ^ 2 * weight α (i + 1) j := by
        intro j _
        ring
      rw [devsum, Finset.sum_congr rfl hexp, Finset.sum_add_distrib,
        Finset.sum_sub_distrib, ← Finset.mul_sum, ← Finset.mul_sum]
      have h1 : (Finset.Icc 1 (i + 1)).sum (fun j => weight α (i + 1) j * (x j) ^ 2)
          = wxsum α (fun j => (x j) ^ 2) (i + 1) := rfl
      have h2 : (Finset.Icc 1 (i + 1)).sum (fun j => weight α (i + 1) j * x j)
          = S α x (i + 1) := wxsum_eq_S α x (i + 1)
      have h3 : (Finset.Icc 1 (i + 1)).sum (fun j => weight α (i + 1) j)
          = W α (i + 1) := wsum_eq_W α (i + 1)
      rw [h1, h2, h3, hmean]
      field_simp
      ring

theorem D_eq_sub (α : ℚ) (x : ℕ → ℚ) (hβ : 0 ≤ 1 - α) :
    ∀ i, D α x i = wxsum α (fun j => (x j) ^ 2) i - (S α x i) ^ 2 / W α i := by
  intro i
  induction i with
  | zero => simp [D, wxsum, S, W]
  | succ i ih =>
      cases i with
      | zero =>
          simp only [D, S, W, specMean, wxsum_eq_S]
          simp [S, W]
      | succ k =>
          have hWi : W α (k + 1) ≠ 0 := W_ne_zero α hβ (k + 1) (by omega)
          have hWpos : (0 : ℚ) < 1 + (1 - α) * W α (k + 1) := by
            nlinarith [W_ge_one α hβ (k + 1) (by omega)]
          have hWs : (1 : ℚ) + (1 - α) * W α (k + 1) ≠ 0 := ne_of_gt hWpos
          have hQ : wxsum α (fun j => (x j) ^ 2) (k + 1 + 1)
              = (x (k + 1 + 1)) ^ 2
                + (1 - α) * wxsum α (fun j => (x j) ^ 2) (k + 1) := by
            rw [wxsum_eq_S, wxsum_eq_S, S]
          rw [D, ih, specMean, hQ]
          rw [show S α x (k + 1 + 1) = x (k + 1 + 1) + (1 - α) * S α x (k + 1)
            from rfl]
          rw [show W α (k + 1 + 1) = 1 + (1 - α) * W α (k + 1) from rfl]
          field_simp
          ring

theorem devsum_eq_D (α : ℚ) (x : ℕ → ℚ) (hβ : 0 ≤ 1 - α) (i : ℕ) :
    devsum α x i = D α x i := by
  rw [devsum_eq_sub α x hβ i, D_eq_sub α x hβ i]

/-! ## The bias-correction denominator -/

theorem biasDenom_eq (α : ℚ) (i : ℕ) :
    biasDenom α i = W α i - Wsq α i / W α i := by
  rw [biasDenom, wsum_eq_W, wsqsum_eq_Wsq]

theorem biasDenom_zero (α : ℚ) : biasDenom α 0 = 0 := by
  simp [biasDenom, wsum, wsqsum]

theorem biasDenom_one (α : ℚ) : biasDenom α 1 = 0 := by
  simp [biasDenom, wsum, wsqsum, weight]

theorem biasDenom_pos_iff (α : ℚ) (h0 : 0 < α) (h1 : α < 1) (i : ℕ) :
    0 < biasDenom α i ↔ 2 ≤ i := by
  constructor
  · intro hpos
    by_contra hlt
    interval_cases i
    · rw [biasDenom_zero α] at hpos
      exact lt_irrefl 0 hpos
    · rw [biasDenom_one α] at hpos
      exact lt_irrefl 0 hpos
  · intro hi
    have hβ : (0 : ℚ) < 1 - α := by linarith
    have hW : 1 ≤ W α i := W_ge_one α (le_of_lt hβ) i (by omega)
    have hWpos : (0 : ℚ) < W α i := by linarith
    have hlt : Wsq α i < (W α i) ^ 2 := Wsq_lt_W_sq α hβ i hi
    rw [biasDenom_eq, sub_pos, div_lt_iff₀ hWpos]
    nlinarith

/-! ## Row emission: `dropna(how='any')` over the per-alpha frame
(lines 70-76) -/

/-- A row survives `dropna(how='any')` iff neither its `ewma` nor its
`ewmstd` column is NaN. -/
def rowKept (α : ℚ) (i : ℕ) : Bool :=
  decide (wsum α i ≠ 0) && decide (0 < biasDenom α i)

/-- The 1-based indices of the flow rows that survive `dropna` for one
decay parameter, in frame order. -/
def emittedIdx (α : ℚ) (n : ℕ) : List ℕ :=
  (((List.range n).map (· + 1)).filter (rowKept α))

/-- Value column of the flow table, 1-indexed: the `size` of flow row
`i` (out of range reads the junk default, never emitted). -/
def flowVal (flow : List (ℕ × ℚ)) (i : ℕ) : ℚ := (flow.getD (i - 1) (0, 0)).2

/-- Timestamp column of the flow table, 1-indexed. -/
def flowTs (flow : List (ℕ × ℚ)) (i : ℕ) : ℕ := (flow.getD (i - 1) (0, 0)).1

/-- The `(timestamp, alpha)` sort keys of one per-alpha block of
`df_ewm`, in the row order the code produces (ascending timestamp,
NaN rows dropped). -/
def alphaBlock (flow : List (ℕ × ℚ)) (a : ℚ) : List (ℕ × ℚ) :=
  (emittedIdx a flow.length).map (fun i => (flowTs flow i, a))

/-- The `(timestamp, alpha)` sort keys of the whole `df_ewm` table:
line 70 concatenates one block per configured alpha, in list order. -/
def smoothedKeys : List ℚ → List (ℕ × ℚ) → List (ℕ × ℚ)
  | [], _ => []
  | a :: rest, flow => alphaBlock flow a ++ smoothedKeys rest flow

/-- Line 69: `alpha = [0.01, 0.05, 0.1]`. -/
def alphasCode : List ℚ := [1 / 100, 1 / 20, 1 / 10]

/-- Lexicographic row order with timestamp as the primary key and the
decay parameter as the secondary key. -/
def tsThenAlpha (p q : ℕ × ℚ) : Prop :=
  p.1 < q.1 ∨ (p.1 = q.1 ∧ p.2 ≤ q.2)

/-- Lexicographic row order with the decay parameter as the primary key
and timestamp as the secondary key. -/
def alphaThenTs (p q : ℕ × ℚ) : Prop :=
  p.2 < q.2 ∨ (p.2 = q.2 ∧ p.1 ≤ q.1)

instance : DecidableRel tsThenAlpha := by
  intro p q
  unfold tsThenAlpha
  infer_instance

instance : DecidableRel alphaThenTs := by
  intro p q
  unfold alphaThenTs
  infer_instance

/-! ## Record loader (lines 36-45) -/

/-- Line 45: the code opens `sqlite3.connect('lightning.sqlite3')`,
a hard-coded literal; the parsed `--sqlite=<path>` option is never
consulted. -/
def connectPath (_sqliteArg : Option String) : String := "lightning.sqlite3"

/-- The path the module docstring documents (lines 14-15): `--sqlite`
sets the database path, `lightning.sqlite3` is only the default. -/
def documentedConnectPath (sqliteArg : Option String) : String :=
  sqliteArg.getD "lightning.sqlite3"

/-! ## Helper lemmas on row emission -/

theorem rowKept_one (α : ℚ) : rowKept α 1 = false := by
  simp [rowKept, biasDenom_one]

theorem rowKept_true (α : ℚ) (h0 : 0 < α) (h1 : α < 1) (i : ℕ) (hi : 2 ≤ i) :
    rowKept α i = true := by
  have hβ : (0 : ℚ) ≤ 1 - α := by linarith
  have hpos : 0 < biasDenom α i := (biasDenom_pos_iff α h0 h1 i).mpr hi
  have hne : wsum α i ≠ 0 := by
    rw [wsum_eq_W]
    exact W_ne_zero α hβ i (by omega)
  simp [rowKept, hne, hpos]

theorem rowKept_iff (α : ℚ) (h0 : 0 < α) (h1 : α < 1) (i : ℕ) :
    rowKept α i = true ↔ 2 ≤ i := by
  constructor
  · intro hk
    simp only [rowKept, Bool.and_eq_true, decide_eq_true_eq] at hk
    exact (biasDenom_pos_iff α h0 h1 i).mp hk.2
  · exact rowKept_true α h0 h1 i

theorem mem_emittedIdx (α : ℚ) (n i : ℕ) :
    i ∈ emittedIdx α n ↔ (1 ≤ i ∧ i ≤ n ∧ rowKept α i = true) := by
  simp only [emittedIdx, List.mem_filter, List.mem_map, List.mem_range]
  constructor
  · rintro ⟨⟨k, hk, rfl⟩, hkept⟩
    exact ⟨by omega, by omega, hkept⟩
  · rintro ⟨h1, hn, hkept⟩
    exact ⟨⟨i - 1, by omega, by omega⟩, hkept⟩

theorem one_not_mem_emittedIdx (α : ℚ) (n : ℕ) : 1 ∉ emittedIdx α n := by
  intro h
  have := (mem_emittedIdx α n 1).mp h
  rw [rowKept_one] at this
  exact absurd this.2.2 (by simp)

theorem emittedIdx_pairwise (α : ℚ) (n : ℕ) :
    (emittedIdx α n).Pairwise (· < ·) := by
  apply List.Pairwise.sublist (List.filter_sublist _)
  rw [List.pairwise_map]
  exact (List.pairwise_lt_range n).imp (by omega)

/-! ## Helper lemmas on sorted flow tables -/

theorem sorted_fst_getD :
    ∀ (flow : List (ℕ × ℚ)), (flow.map Prod.fst).Sorted (· < ·) →
      ∀ a b : ℕ, a < b → b < flow.length →
        (flow.getD a (0, 0)).1 < (flow.getD b (0, 0)).1 := by
  intro flow
  induction flow with
  | nil => intro _ a b _ hb; simp at hb
  | cons p rest ih =>
      intro hsorted a b hab hb
      rw [List.map_cons, List.sorted_cons] at hsorted
      cases b with
      | zero => omega
      | succ b' =>
          cases a with
          | zero =>
              have hb' : b' < rest.length := by simpa using hb
              simp only [List.getD_cons_zero, List.getD_cons_succ]
              rw [List.getD_eq_getElem rest (0, 0) hb']
              apply hsorted.1
              exact List.mem_map_of_mem Prod.fst (List.getElem_mem hb')
          | succ a' =>
              simp only [List.getD_cons_succ]
              exact ih hsorted.2 a' b' (by omega) (by simpa using hb)

/-! ## Further helper lemmas -/

theorem meanOpt_isSome_iff (α : ℚ) (x : ℕ → ℚ) (i : ℕ) :
    (ewmMeanOpt α x i).isSome ↔ wsum α i ≠ 0 := by
  rw [ewmMeanOpt]
  split <;> simp [*]

theorem varOpt_isSome_iff (α : ℚ) (x : ℕ → ℚ) (i : ℕ) :
    (ewmVarOpt α x i).isSome ↔ 0 < biasDenom α i := by
  rw [ewmVarOpt]
  split <;> simp [*]

theorem rowKept_imp_two_le (α : ℚ) (i : ℕ) (h : rowKept α i = true) : 2 ≤ i := by
  simp only [rowKept, Bool.and_eq_true, decide_eq_true_eq] at h
  by_contra hlt
  interval_cases i
  · rw [biasDenom_zero] at h
    exact absurd h.2 (lt_irrefl 0)
  · rw [biasDenom_one] at h
    exact absurd h.2 (lt_irrefl 0)

theorem biasDenom_alpha_one (i : ℕ) : biasDenom 1 i = 0 := by
  rw [biasDenom_eq]
  cases i with
  | zero => simp [W, Wsq]
  | succ i => simp [W, Wsq]

theorem ewmVar_eq_spec (α : ℚ) (x : ℕ → ℚ) (hβ : 0 ≤ 1 - α) (i : ℕ) :
    ewmVar α x i = D α x i / (W α i - Wsq α i / W α i) := by
  rw [ewmVar, devsum_eq_D α x hβ, biasDenom_eq]

theorem alphaBlock_nil (a : ℚ) : alphaBlock [] a = [] := by
  simp [alphaBlock, emittedIdx]

/-! ## Claims -/

/-- C1: for `0 < α ≤ 1` the weighted mean the smoothing engine computes
at index `i` — pandas' weighted average of `x_1..x_i` with weight
`(1-α)^(i-j)` on `x_j`, normalized by the finite sum of those weights —
equals `S_i / W_i` for the spec's recursions `S_i = x_i + (1-α)·S_{i-1}`
and `W_i = 1 + (1-α)·W_{i-1}` (both zero at 0); moreover the `com`
argument the code passes realizes exactly this decay parameter `α`. -/
theorem C1_weighted_mean (α : ℚ) (x : ℕ → ℚ) (h0 : 0 < α) (h1 : α ≤ 1)
    (i : ℕ) :
    ewmMean α x i = S α x i / W α i ∧ alphaFromCom (comOf α) = α := by
  constructor
  · rw [ewmMean, wxsum_eq_S, wsum_eq_W]
  · have hα : α ≠ 0 := ne_of_gt h0
    rw [alphaFromCom, comOf]
    field_simp

/-- Witness for C1 at `α = 1/2`, `x j = j`, `i = 2`. -/
theorem C1_weighted_mean_witness :
    ewmMean (1 / 2) (fun j => (j : ℚ)) 2
        = S (1 / 2) (fun j => (j : ℚ)) 2 / W (1 / 2) 2
      ∧ alphaFromCom (comOf (1 / 2)) = 1 / 2 :=
  C1_weighted_mean (1 / 2) (fun j => (j : ℚ)) (by norm_num) (by norm_num) 2

/-- C4 counterexample: for the record with side `"FOO"` (neither BUY
nor SELL) the code produces the signed value `-size` instead of failing;
the spec-side signer (which the claim describes) rejects it. -/
theorem C4_counterexample :
    signedSize ⟨0, 0, "FOO", 5⟩ = -5
      ∧ signedSizeSpec ⟨0, 0, "FOO", 5⟩ = none := by
  constructor <;> simp [signedSize, signedSizeSpec]

/-- C4 amended: the flow signer yields `size` for side BUY and `-size`
for every other side value (SELL included); no side value is rejected. -/
theorem C4_flow_signer (r : ExecRecord) :
    (r.side = "BUY" → signedSize r = r.size)
      ∧ (r.side ≠ "BUY" → signedSize r = -r.size) := by
  constructor <;> intro h <;> simp [signedSize, h]

/-- Witness for C4 at a SELL record. -/
theorem C4_flow_signer_witness : signedSize ⟨0, 0, "SELL", 7⟩ = -7 :=
  (C4_flow_signer _).2 (by decide)

/-- C7: the record loader ignores the supplied data-source path — the
code connects to the literal `lightning.sqlite3` for every argument,
while the documented behavior (module docstring, lines 14-15) is to
open the supplied path. -/
theorem C7_sqlite_path_ignored :
    connectPath (some "other.sqlite3") = "lightning.sqlite3"
      ∧ documentedConnectPath (some "other.sqlite3") = "other.sqlite3"
      ∧ connectPath (some "other.sqlite3")
          ≠ documentedConnectPath (some "other.sqlite3") := by
  refine ⟨rfl, rfl, ?_⟩
  decide

/-- C8: for `α = 1` the weighted mean collapses to the current value
(`mean_i = x_i` for every `i ≥ 1`), the weighted standard deviation is
undefined at every index, and the emitted smoothed sequence is empty. -/
theorem C8_alpha_one (x : ℕ → ℚ) (n i : ℕ) :
    (1 ≤ i → ewmMean 1 x i = x i)
      ∧ ewmVarOpt 1 x i = none
      ∧ emittedIdx 1 n = [] := by
  refine ⟨?_, ?_, ?_⟩
  · intro hi
    cases i with
    | zero => omega
    | succ i =>
        rw [ewmMean, wxsum_eq_S, wsum_eq_W]
        simp [S, W]
  · rw [ewmVarOpt, if_neg]
    rw [biasDenom_alpha_one]
    exact lt_irrefl 0
  · rw [emittedIdx, List.filter_eq_nil_iff]
    intro i _
    simp only [rowKept, Bool.and_eq_true, decide_eq_true_eq, not_and]
    intro _
    rw [biasDenom_alpha_one]
    exact lt_irrefl 0

/-- Witness for C8 at a constant flow series. -/
theorem C8_alpha_one_witness :
    ewmMean 1 (fun _ => (7 : ℚ)) 3 = 7
      ∧ ewmVarOpt 1 (fun _ => (7 : ℚ)) 3 = none
      ∧ emittedIdx 1 5 = [] :=
  ⟨(C8_alpha_one (fun _ => (7 : ℚ)) 5 3).1 (by norm_num),
    (C8_alpha_one (fun _ => (7 : ℚ)) 5 3).2.1,
    (C8_alpha_one (fun _ => (7 : ℚ)) 5 3).2.2⟩

/-- C9: an empty execution input aggregates to an empty flow sequence,
and the smoothed table is empty for every configured decay parameter;
every function involved is total (no error is raised). -/
theorem C9_empty_input (alphas : List ℚ) :
    aggregate [] = []
      ∧ (∀ a ∈ alphas, alphaBlock [] a = [])
      ∧ smoothedKeys alphas [] = [] := by
  refine ⟨by simp [aggregate], fun a _ => alphaBlock_nil a, ?_⟩
  induction alphas with
  | nil => rfl
  | cons a rest ih => simp [smoothedKeys, alphaBlock_nil, ih]

/-- Witness for C9 at the code's configured decay parameters. -/
theorem C9_empty_input_witness :
    aggregate [] = []
      ∧ alphaBlock [] (1 / 100) = []
      ∧ smoothedKeys alphasCode [] = [] :=
  ⟨(C9_empty_input alphasCode).1,
    (C9_empty_input alphasCode).2.1 (1 / 100) (by simp [alphasCode]),
    (C9_empty_input alphasCode).2.2⟩

/-- C10 (implicit behavior): a record whose side is neither BUY nor SELL
is not rejected — the signer is total and assigns `-size`, treating
every side value other than the exact string `"BUY"` as a sell. -/
theorem C10_malformed_side (r : ExecRecord) (h1 : r.side ≠ "BUY")
    (h2 : r.side ≠ "SELL") : signedSize r = -r.size := by
  simp [signedSize, h1]

/-- Witness for C10 at side `"XYZ"`. -/
theorem C10_malformed_side_witness : signedSize ⟨1, 2, "XYZ", 3⟩ = -3 :=
  C10_malformed_side ⟨1, 2, "XYZ", 3⟩ (by decide) (by decide)

/-- C5: every row surviving `dropna(how='any')` has both its weighted
mean and its weighted standard deviation defined; a row is emitted
exactly when it is in range and both are defined; the first row is
never emitted; and for a flow table with strictly ascending timestamps
the first timestamp never appears in the emitted block. -/
theorem C5_defined_rows (α : ℚ) (x : ℕ → ℚ) (n : ℕ) (h0 : 0 < α)
    (h1 : α ≤ 1) :
    (∀ i ∈ emittedIdx α n, (ewmMeanOpt α x i).isSome ∧ (ewmVarOpt α x i).isSome)
      ∧ (∀ i, i ∈ emittedIdx α n
            ↔ 1 ≤ i ∧ i ≤ n
                ∧ (ewmMeanOpt α x i).isSome ∧ (ewmVarOpt α x i).isSome)
      ∧ 1 ∉ emittedIdx α n
      ∧ (∀ flow : List (ℕ × ℚ), (flow.map Prod.fst).Sorted (· < ·) →
            ∀ p ∈ alphaBlock flow α, p.1 ≠ flowTs flow 1) := by
  have hkept : ∀ i, rowKept α i = true
      ↔ ((ewmMeanOpt α x i).isSome ∧ (ewmVarOpt α x i).isSome) := by
    intro i
    rw [meanOpt_isSome_iff, varOpt_isSome_iff]
    simp [rowKept]
  refine ⟨?_, ?_, one_not_mem_emittedIdx α n, ?_⟩
  · intro i hi
    exact (hkept i).mp ((mem_emittedIdx α n i).mp hi).2.2
  · intro i
    rw [mem_emittedIdx, hkept i]
  · intro flow hs p hp
    rcases List.mem_map.mp hp with ⟨i, hi, rfl⟩
    rcases (mem_emittedIdx α flow.length i).mp hi with ⟨hi1, hin, hik⟩
    have hi2 : 2 ≤ i := rowKept_imp_two_le α i hik
    have hlt : flowTs flow 1 < flowTs flow i := by
      rw [flowTs, flowTs]
      exact sorted_fst_getD flow hs 0 (i - 1) (by omega) (by omega)
    exact fun h => absurd h.symm (ne_of_lt hlt)

/-- Witness for C5 at `α = 1/2`, a constant flow series of length 3. -/
theorem C5_defined_rows_witness :
    1 ∉ emittedIdx (1 / 2) 3 :=
  (C5_defined_rows (1 / 2) (fun _ => (0 : ℚ)) 3 (by norm_num)
    (by norm_num)).2.2.1

/-- C2: for `0 < α < 1` the bias-corrected weighted standard deviation
the smoothing engine emits at index `i` is defined exactly when
`i ≥ 2` (never at `i = 1`, where the denominator `W_i - Wsq_i/W_i`
vanishes), and where defined it equals
`sqrt(D_i / (W_i - Wsq_i/W_i))` for the spec's recursions
`Wsq_i = 1 + (1-α)^2·Wsq_{i-1}` and
`D_i = (1-α)·D_{i-1} + (1-α)·W_{i-1}/W_i·(x_i - mean_{i-1})^2`. -/
theorem C2_weighted_std (α : ℚ) (x : ℕ → ℚ) (h0 : 0 < α) (h1 : α < 1)
    (i : ℕ) :
    ((ewmVarOpt α x i).isSome ↔ 2 ≤ i)
      ∧ (ewmVarOpt α x i).map (fun q => Real.sqrt ((q : ℚ) : ℝ))
          = if 2 ≤ i then
              some (Real.sqrt
                ((D α x i / (W α i - Wsq α i / W α i) : ℚ) : ℝ))
            else none := by
  have hβ : (0 : ℚ) ≤ 1 - α := by linarith
  have hiff := biasDenom_pos_iff α h0 h1 i
  constructor
  · rw [varOpt_isSome_iff]
    exact hiff
  · by_cases h2 : 2 ≤ i
    · rw [if_pos h2, ewmVarOpt, if_pos (hiff.mpr h2), Option.map_some',
        ewmVar_eq_spec α x hβ i]
    · rw [if_neg h2, ewmVarOpt, if_neg (fun hpos => h2 (hiff.mp hpos)),
        Option.map_none']

/-- Witness for C2 at `α = 1/2`, `x j = j`, `i = 2`. -/
theorem C2_weighted_std_witness :
    ((ewmVarOpt (1 / 2) (fun j => (j : ℚ)) 2).isSome ↔ 2 ≤ 2)
      ∧ (ewmVarOpt (1 / 2) (fun j => (j : ℚ)) 2).map
            (fun q => Real.sqrt ((q : ℚ) : ℝ))
          = if 2 ≤ 2 then
              some (Real.sqrt
                ((D (1 / 2) (fun j => (j : ℚ)) 2
                    / (W (1 / 2) 2 - Wsq (1 / 2) 2 / W (1 / 2) 2) : ℚ) : ℝ))
            else none :=
  C2_weighted_std (1 / 2) (fun j => (j : ℚ)) (by norm_num) (by norm_num) 2

/-- Key column of the aggregated flow table: pandas' sorted distinct
group keys. -/
theorem aggregate_keys (l : List (ℕ × ℚ)) :
    (aggregate l).map Prod.fst = (l.map Prod.fst).toFinset.sort (· ≤ ·) := by
  rw [aggregate, List.map_map]
  show List.map id _ = _
  exact List.map_id _

/-- C3: the temporal aggregator emits one row per distinct timestamp
(its key column is exactly the set of input timestamps, without
duplicates), each row's value is the exact sum of the signed sizes
sharing that timestamp, the key column is sorted ascending, and the
whole output is invariant under permutation of the input. -/
theorem C3_aggregator (l l' : List (ℕ × ℚ)) (hperm : l.Perm l') :
    ((aggregate l).map Prod.fst).Nodup
      ∧ (∀ t, t ∈ (aggregate l).map Prod.fst ↔ t ∈ l.map Prod.fst)
      ∧ (∀ p ∈ aggregate l,
            p.2 = ((l.filter (fun q => q.1 = p.1)).map Prod.snd).sum)
      ∧ ((aggregate l).map Prod.fst).Sorted (· ≤ ·)
      ∧ aggregate l = aggregate l' := by
  refine ⟨?_, ?_, ?_, ?_, ?_⟩
  · rw [aggregate_keys]
    exact Finset.sort_nodup _ _
  · intro t
    rw [aggregate_keys, Finset.mem_sort, List.mem_toFinset]
  · intro p hp
    rcases List.mem_map.mp hp with ⟨t, _, rfl⟩
    rfl
  · rw [aggregate_keys]
    exact Finset.sort_sorted _ _
  · have hkeys : (l.map Prod.fst).toFinset = (l'.map Prod.fst).toFinset :=
      List.toFinset_eq_of_perm _ _ (hperm.map Prod.fst)
    rw [aggregate, aggregate, hkeys]
    apply List.map_congr_left
    intro t _
    have hfil : (l.filter (fun p => p.1 = t)).Perm
        (l'.filter (fun p => p.1 = t)) := hperm.filter _
    rw [List.Perm.sum_eq (hfil.map Prod.snd)]

/-- Witness for C3: a concrete input with a duplicate timestamp and a
permutation of it. -/
theorem C3_aggregator_witness :
    aggregate [(2, 3), (1, 4), (2, 1)] = aggregate [(1, 4), (2, 1), (2, 3)] :=
  (C3_aggregator [(2, 3), (1, 4), (2, 1)] [(1, 4), (2, 1), (2, 3)]
    (by decide)).2.2.2.2

/-! ## Row order of the smoothed table (claim C6) -/

/-- A three-point flow series (the spec's own worked example values). -/
def flow3 : List (ℕ × ℚ) := [(1, 1), (2, -1), (3, 2)]

theorem emittedIdx_three (α : ℚ) (h0 : 0 < α) (h1 : α < 1) :
    emittedIdx α 3 = [2, 3] := by
  have k1 : rowKept α 1 = false := rowKept_one α
  have k2 : rowKept α 2 = true := rowKept_true α h0 h1 2 (by norm_num)
  have k3 : rowKept α 3 = true := rowKept_true α h0 h1 3 (by norm_num)
  simp [emittedIdx, List.range_succ, k1, k2, k3]

theorem alphaBlock_flow3 (a : ℚ) (h0 : 0 < a) (h1 : a < 1) :
    alphaBlock flow3 a = [(2, a), (3, a)] := by
  rw [alphaBlock, show flow3.length = 3 from rfl, emittedIdx_three a h0 h1]
  simp [flowTs, flow3]

theorem smoothedKeys_flow3 :
    smoothedKeys alphasCode flow3
      = [(2, 1 / 100), (3, 1 / 100), (2, 1 / 20), (3, 1 / 20),
          (2, 1 / 10), (3, 1 / 10)] := by
  rw [show alphasCode = [1 / 100, 1 / 20, 1 / 10] from rfl]
  rw [smoothedKeys, smoothedKeys, smoothedKeys, smoothedKeys]
  rw [alphaBlock_flow3 (1 / 100) (by norm_num) (by norm_num)]
  rw [alphaBlock_flow3 (1 / 20) (by norm_num) (by norm_num)]
  rw [alphaBlock_flow3 (1 / 10) (by norm_num) (by norm_num)]
  rfl

/-- C6 counterexample: with the code's decay parameters and a
three-point flow series, the written smoothed table is *not* sorted
with timestamp as the primary key — row `(3, 0.01)` precedes row
`(2, 0.05)`. -/
theorem C6_counterexample :
    ¬ (smoothedKeys alphasCode flow3).Sorted tsThenAlpha := by
  intro h
  rw [smoothedKeys_flow3] at h
  rw [List.sorted_cons] at h
  rw [List.sorted_cons] at h
  have hrel : tsThenAlpha (3, 1 / 100) (2, 1 / 20) :=
    h.2.1 (2, 1 / 20) (by simp)
  rcases hrel with h' | h'
  · omega
  · omega

theorem mem_alphaBlock_snd (flow : List (ℕ × ℚ)) (a : ℚ) (p : ℕ × ℚ)
    (hp : p ∈ alphaBlock flow a) : p.2 = a := by
  rcases List.mem_map.mp hp with ⟨i, _, rfl⟩
  rfl

theorem snd_mem_smoothedKeys :
    ∀ (alphas : List ℚ) (flow : List (ℕ × ℚ)) (p : ℕ × ℚ),
      p ∈ smoothedKeys alphas flow → p.2 ∈ alphas := by
  intro alphas
  induction alphas with
  | nil => intro flow p hp; simp [smoothedKeys] at hp
  | cons a rest ih =>
      intro flow p hp
      rcases List.mem_append.mp hp with hb | hr
      · rw [mem_alphaBlock_snd flow a p hb]
        exact List.mem_cons_self a rest
      · exact List.mem_cons_of_mem a (ih flow p hr)

theorem alphaBlock_pairwise (flow : List (ℕ × ℚ)) (a : ℚ)
    (hts : (flow.map Prod.fst).Sorted (· < ·)) :
    (alphaBlock flow a).Pairwise alphaThenTs := by
  rw [alphaBlock, List.pairwise_map]
  apply List.Pairwise.imp_of_mem ?_ (emittedIdx_pairwise a flow.length)
  intro i j hi hj hij
  rcases (mem_emittedIdx a flow.length i).mp hi with ⟨hi1, hin, _⟩
  rcases (mem_emittedIdx a flow.length j).mp hj with ⟨hj1, hjn, _⟩
  right
  refine ⟨rfl, le_of_lt ?_⟩
  rw [flowTs, flowTs]
  exact sorted_fst_getD flow hts (i - 1) (j - 1) (by omega) (by omega)

/-- C6 amended: the smoothed table is sorted with the *decay parameter*
as the primary key and the timestamp as the secondary key (the code
concatenates one timestamp-ascending block per configured alpha, and
the configured alpha list is ascending). -/
theorem C6_sorted_alpha_then_ts (alphas : List ℚ) (flow : List (ℕ × ℚ))
    (hA : alphas.Sorted (· < ·))
    (hts : (flow.map Prod.fst).Sorted (· < ·)) :
    (smoothedKeys alphas flow).Sorted alphaThenTs := by
  induction alphas with
  | nil => exact List.Pairwise.nil
  | cons a rest ih =>
      rw [List.sorted_cons] at hA
      rw [smoothedKeys, List.Sorted, List.pairwise_append]
      refine ⟨alphaBlock_pairwise flow a hts, ih hA.2, ?_⟩
      intro p hp q hq
      left
      rw [mem_alphaBlock_snd flow a p hp]
      exact hA.1 q.2 (snd_mem_smoothedKeys rest flow q hq)

/-- Witness for the amended C6 at the code's decay parameters and the
three-point series. -/
theorem C6_sorted_alpha_then_ts_witness :
    (smoothedKeys alphasCode flow3).Sorted alphaThenTs :=
  C6_sorted_alpha_then_ts alphasCode flow3
    (by norm_num [alphasCode, List.sorted_cons])
    (by simp [flow3, List.sorted_cons])
